import Mathlib

/-
Verification of the duty-allocation core of the ai-duty-allocation-system
repository.

The repository contains two copies of the allocation loop:
`generate_duty_list` in `allocator.py` and `generate_slot_duty` in `app.py`
(the latter computes its capacity through `calculate_max_duties`).  Both are
embedded below.

Modelling choices:
  * Python dicts are insertion-ordered association lists.  Assigning to an
    existing key replaces the value in place, a new key is appended at the
    end (`dictSet`); a lookup returns `Option` (`dictFind`), so a `KeyError`
    surfaces as `none` and the whole allocator is an `Option`-valued
    function.
  * `random.choice` is modelled by an explicit stream of draws
    `rng : Nat → Nat` together with a counter of consumed draws; the k-th
    choice from a non-empty list `l` picks index `rng k % l.length`.
    The stream is consumed exactly where the Python code calls
    `random.choice`, i.e. only when the candidate list is non-empty.
  * `math.ceil(a / b)` on non-negative integers is `ceilDiv`.
  * The sentinel the code appends when no teacher is available is the
    literal string "No Available Teacher", stored in the same per-room list
    that doubles as the room-membership check - exactly as in the source.
-/

namespace DutyAlloc

/-- The in-band marker string appended when no teacher is available. -/
def Sentinel : String := "No Available Teacher"

/-- Ceiling division on naturals, the value of `math.ceil(a / b)` for
non-negative integers with positive divisor. -/
def ceilDiv (a b : Nat) : Nat := (a + b - 1) / b

/-- Lookup in a Python dict represented as an insertion-ordered association
list; `none` models a `KeyError`. -/
def dictFind {κ α : Type} [DecidableEq κ] : List (κ × α) → κ → Option α
  | [], _ => none
  | p :: rest, k => if p.1 = k then some p.2 else dictFind rest k

/-- Assignment `d[k] = v` on a Python dict: an existing key keeps its
position and gets the new value, a fresh key is appended at the end. -/
def dictSet {κ α : Type} [DecidableEq κ] : List (κ × α) → κ → α → List (κ × α)
  | [], k, v => [(k, v)]
  | p :: rest, k, v => if p.1 = k then (k, v) :: rest else p :: dictSet rest k v

/-- Duty count of a teacher, defaulting to 0 for an absent key. -/
def tcVal (tc : List (String × Nat)) (t : String) : Nat := (dictFind tc t).getD 0

/-- Roster of a slot, defaulting to the empty list for an absent key. -/
def saVal (sa : List (Nat × List String)) (s : Nat) : List String :=
  (dictFind sa s).getD []

/-- The dict comprehension `{teacher: 0 for teacher in teachers}`. -/
def initTC (teachers : List String) : List (String × Nat) :=
  teachers.foldl (fun d t => dictSet d t 0) []

/-- The dict comprehension `{slot: [] for slot in range(slots)}`. -/
def initSA (slots : Nat) : List (Nat × List String) :=
  (List.range slots).foldl (fun d s => dictSet d s []) []

/-- Mutable state of the allocation loop: the duty table built so far, the
per-teacher duty counters, the per-slot rosters, and the random stream with
the number of draws consumed. -/
structure St where
  dutyTable : List (String × List String)
  teacherCount : List (String × Nat)
  slotAssignments : List (Nat × List String)
  rng : Nat → Nat
  draws : Nat

/-- The list comprehension building `available_teachers`: each teacher is
kept when its duty count is below the cap, it is not in the slot roster and
not in the current room's list.  The duty-count lookup `teacher_count[t]`
is performed for every teacher, so a missing key fails the whole
comprehension. -/
def availFilter (tc : List (String × Nat)) (cap : Nat) (sa dr : List String) :
    List String → Option (List String)
  | [] => some []
  | t :: ts =>
    match dictFind tc t with
    | none => none
    | some c =>
      match availFilter tc cap sa dr ts with
      | none => none
      | some rest =>
        some (if c < cap ∧ t ∉ sa ∧ t ∉ dr then t :: rest else rest)

/-- Body of the inner loop of `generate_duty_list` for one `(room, slot)`
cell: build the candidate list, append the sentinel when it is empty,
otherwise pick a random candidate, append it to the room, bump its counter
and add it to the slot roster. -/
def processCell (teachers : List String) (cap : Nat) (room : String)
    (st : St) (slot : Nat) : Option St :=
  match dictFind st.slotAssignments slot with
  | none => none
  | some sa =>
    match dictFind st.dutyTable room with
    | none => none
    | some dr =>
      match availFilter st.teacherCount cap sa dr teachers with
      | none => none
      | some avail =>
        if avail = [] then
          some { st with dutyTable := dictSet st.dutyTable room (dr ++ [Sentinel]) }
        else
          let selected := avail.getD (st.rng st.draws % avail.length) ""
          match dictFind st.teacherCount selected with
          | none => none
          | some c =>
            some { st with
              dutyTable := dictSet st.dutyTable room (dr ++ [selected]),
              teacherCount := dictSet st.teacherCount selected (c + 1),
              slotAssignments := dictSet st.slotAssignments slot (sa ++ [selected]),
              draws := st.draws + 1 }

/-- Body of the outer loop of `generate_duty_list` for one room:
`duty_table[room] = []` followed by the slot loop. -/
def processRoom (teachers : List String) (cap slots : Nat) (st : St)
    (room : String) : Option St :=
  (List.range slots).foldlM (processCell teachers cap room)
    { st with dutyTable := dictSet st.dutyTable room [] }

/-- Embedding of `generate_duty_list` from `allocator.py`: early return
`({}, 0)` when there are no teachers, otherwise the capacity is
`ceil(total_duties / total_teachers)` and the nested room/slot loop runs. -/
def generate_duty_list (rooms teachers : List String) (slots : Nat)
    (rng : Nat → Nat) : Option (List (String × List String) × Nat) :=
  if teachers.length = 0 then some ([], 0)
  else
    let max_duties := ceilDiv (rooms.length * slots) teachers.length
    (rooms.foldlM (processRoom teachers max_duties slots)
        { dutyTable := [], teacherCount := initTC teachers,
          slotAssignments := initSA slots, rng := rng, draws := 0 }).map
      (fun st => (st.dutyTable, max_duties))

/-- Embedding of `calculate_max_duties` from `app.py`. -/
def calculate_max_duties (num_rooms num_slots num_teachers : Nat) : Nat :=
  if num_teachers = 0 then 0
  else ceilDiv (num_rooms * num_slots) num_teachers

/-- Embedding of `generate_slot_duty` from `app.py`: identical loop body,
but the capacity comes from `calculate_max_duties` and there is no early
return for an empty teacher list. -/
def generate_slot_duty (rooms teachers : List String) (slots : Nat)
    (rng : Nat → Nat) : Option (List (String × List String) × Nat) :=
  let max_duties := calculate_max_duties rooms.length slots teachers.length
  (rooms.foldlM (processRoom teachers max_duties slots)
      { dutyTable := [], teacherCount := initTC teachers,
        slotAssignments := initSA slots, rng := rng, draws := 0 }).map
    (fun st => (st.dutyTable, max_duties))

/-- Total number of cells of the duty table that hold the string `x`. -/
def totalOcc (x : String) (dt : List (String × List String)) : Nat :=
  (dt.map (fun p => p.2.count x)).sum

/-- Number of rooms whose cell at slot position `s` holds the string `x`. -/
def posOcc (s : Nat) (x : String) (dt : List (String × List String)) : Nat :=
  dt.countP (fun p => p.2.get? s == some x)

/-- Sum of all duty counters over the teacher list. -/
def sumTC (teachers : List String) (tc : List (String × Nat)) : Nat :=
  (teachers.map (fun t => tcVal tc t)).sum

/-- Decidable version of the eligibility condition of one teacher. -/
def eligibleB (tc : List (String × Nat)) (cap : Nat) (sa dr : List String)
    (t : String) : Bool :=
  decide (tcVal tc t < cap ∧ t ∉ sa ∧ t ∉ dr)

/-- The invariant of the allocation loop used for the bound, roster and
totality claims. -/
structure MainInv (teachers : List String) (cap slots : Nat) (st : St) : Prop where
  tcDom : ∀ t ∈ teachers, (dictFind st.teacherCount t).isSome
  tcCap : ∀ x, tcVal st.teacherCount x ≤ cap
  saDom : ∀ s, s < slots → (dictFind st.slotAssignments s).isSome
  occLe : ∀ x, x ≠ Sentinel → totalOcc x st.dutyTable ≤ tcVal st.teacherCount x
  posLe : ∀ s x, s < slots → x ≠ Sentinel →
    posOcc s x st.dutyTable ≤ (if x ∈ saVal st.slotAssignments s then 1 else 0)
  roomLe : ∀ p ∈ st.dutyTable, ∀ x, x ≠ Sentinel → p.2.count x ≤ 1
  cellsMem : ∀ p ∈ st.dutyTable, ∀ x ∈ p.2, x ∈ teachers ∨ x = Sentinel

/-- Additional invariant used for the fullness claim: duty counters are only
ever created for teachers, and every string already sitting in a room list
or slot roster has a positive duty counter. -/
structure Inv6 (teachers : List String) (st : St) : Prop where
  tcSupp : ∀ x n, dictFind st.teacherCount x = some n → x ∈ teachers
  cellsPos : ∀ p ∈ st.dutyTable, ∀ x ∈ p.2, 1 ≤ tcVal st.teacherCount x
  saPos : ∀ s, ∀ x ∈ saVal st.slotAssignments s, 1 ≤ tcVal st.teacherCount x

section DictLemmas

variable {κ α : Type} [DecidableEq κ]

theorem dictFind_dictSet_self (d : List (κ × α)) (k : κ) (v : α) :
    dictFind (dictSet d k v) k = some v := by
  induction d with
  | nil => simp [dictSet, dictFind]
  | cons p rest ih =>
    by_cases h : p.1 = k
    · simp [dictSet, h, dictFind]
    · simp [dictSet, h, dictFind, ih]

theorem dictFind_dictSet_ne (d : List (κ × α)) (k k' : κ) (v : α)
    (h : k' ≠ k) : dictFind (dictSet d k v) k' = dictFind d k' := by
  have hne : ¬ k = k' := fun hh => h hh.symm
  induction d with
  | nil => simp [dictSet, dictFind, hne]
  | cons p rest ih =>
    by_cases hp : p.1 = k
    · have h2 : ¬ p.1 = k' := by rw [hp]; exact hne
      simp [dictSet, hp, dictFind, hne, h2]
    · by_cases hp' : p.1 = k'
      · simp [dictSet, hp, dictFind, hp', h]
      · simp [dictSet, hp, dictFind, hp', ih]

theorem dictFind_isSome_dictSet (d : List (κ × α)) (k k' : κ) (v : α)
    (h : (dictFind d k').isSome) : (dictFind (dictSet d k v) k').isSome := by
  by_cases hk : k' = k
  · subst hk; simp [dictFind_dictSet_self]
  · rwa [dictFind_dictSet_ne _ _ _ _ hk]

theorem dictFind_dictSet_cases (d : List (κ × α)) (k k' : κ) (v w : α)
    (h : dictFind (dictSet d k v) k' = some w) :
    (k' = k ∧ w = v) ∨ dictFind d k' = some w := by
  by_cases hk : k' = k
  · subst hk
    rw [dictFind_dictSet_self] at h
    exact Or.inl ⟨rfl, (Option.some_inj.mp h).symm⟩
  · rw [dictFind_dictSet_ne _ _ _ _ hk] at h
    exact Or.inr h

theorem mem_dictSet (d : List (κ × α)) (k : κ) (v : α) (p : κ × α)
    (h : p ∈ dictSet d k v) : p = (k, v) ∨ p ∈ d := by
  induction d with
  | nil => simpa [dictSet] using h
  | cons q rest ih =>
    by_cases hq : q.1 = k
    · simp only [dictSet, hq, if_true] at h
      rcases List.mem_cons.mp h with h | h
      · exact Or.inl h
      · exact Or.inr (List.mem_cons_of_mem _ h)
    · simp only [dictSet, hq, if_false] at h
      rcases List.mem_cons.mp h with h | h
      · exact Or.inr (h ▸ List.mem_cons_self _ _)
      · rcases ih h with h | h
        · exact Or.inl h
        · exact Or.inr (List.mem_cons_of_mem _ h)

theorem dictFind_mem (d : List (κ × α)) (k : κ) (v : α)
    (h : dictFind d k = some v) : (k, v) ∈ d := by
  induction d with
  | nil => simp [dictFind] at h
  | cons p rest ih =>
    by_cases hp : p.1 = k
    · simp only [dictFind, hp, if_true, Option.some_inj] at h
      have : p = (k, v) := by
        cases p; simp_all
      exact this ▸ List.mem_cons_self _ _
    · simp only [dictFind, hp, if_false] at h
      exact List.mem_cons_of_mem _ (ih h)

theorem dictSet_dictSet_same (d : List (κ × α)) (k : κ) (v w : α) :
    dictSet (dictSet d k v) k w = dictSet d k w := by
  induction d with
  | nil => simp [dictSet]
  | cons p rest ih =>
    by_cases hp : p.1 = k
    · simp [dictSet, hp]
    · simp [dictSet, hp, ih]

theorem foldl_dictSet_const (v : α) :
    ∀ (ks : List κ) (d : List (κ × α)) (k : κ),
      dictFind (ks.foldl (fun d x => dictSet d x v) d) k =
        if k ∈ ks then some v else dictFind d k := by
  intro ks
  induction ks with
  | nil => intro d k; simp
  | cons x rest ih =>
    intro d k
    by_cases hk : k ∈ rest
    · simp [List.foldl_cons, ih, hk, List.mem_cons]
    · by_cases hx : k = x
      · subst hx
        simp [List.foldl_cons, ih, hk, dictFind_dictSet_self]
      · simp [List.foldl_cons, ih, hk, dictFind_dictSet_ne _ _ _ _ hx,
          List.mem_cons, hx]

theorem tcVal_dictSet (tc : List (String × Nat)) (k x : String) (v : Nat) :
    tcVal (dictSet tc k v) x = if x = k then v else tcVal tc x := by
  by_cases h : x = k
  · subst h; simp [tcVal, dictFind_dictSet_self]
  · simp [tcVal, dictFind_dictSet_ne _ _ _ _ h, h]

theorem saVal_dictSet (sa : List (Nat × List String)) (k x : Nat)
    (v : List String) :
    saVal (dictSet sa k v) x = if x = k then v else saVal sa x := by
  by_cases h : x = k
  · subst h; simp [saVal, dictFind_dictSet_self]
  · simp [saVal, dictFind_dictSet_ne _ _ _ _ h, h]

end DictLemmas

section OccLemmas

theorem totalOcc_nil (x : String) : totalOcc x [] = 0 := rfl

theorem totalOcc_dictSet_append (x : String) :
    ∀ (dt : List (String × List String)) (r : String) (dr l' : List String),
      dictFind dt r = some dr →
      totalOcc x (dictSet dt r (dr ++ l')) = totalOcc x dt + l'.count x := by
  intro dt
  induction dt with
  | nil => intro r dr l' h; simp [dictFind] at h
  | cons p rest ih =>
    intro r dr l' h
    by_cases hp : p.1 = r
    · simp only [dictFind, hp, if_true, Option.some_inj] at h
      subst h
      simp only [dictSet, hp, if_true, totalOcc, List.map_cons, List.sum_cons,
        List.count_append]
      ring
    · simp only [dictFind, hp, if_false] at h
      simp only [dictSet, hp, if_false, totalOcc, List.map_cons, List.sum_cons]
      have := ih r dr l' h
      simp only [totalOcc] at this
      omega

theorem totalOcc_dictSet_nil_le (x : String) :
    ∀ (dt : List (String × List String)) (r : String),
      totalOcc x (dictSet dt r []) ≤ totalOcc x dt := by
  intro dt
  induction dt with
  | nil => intro r; simp [dictSet, totalOcc]
  | cons p rest ih =>
    intro r
    by_cases hp : p.1 = r
    · simp only [dictSet, hp, if_true, totalOcc, List.map_cons, List.sum_cons]
      simp
    · simp only [dictSet, hp, if_false, totalOcc, List.map_cons, List.sum_cons]
      have := ih r
      simp only [totalOcc] at this
      omega

theorem posOcc_dictSet_append (s : Nat) (x : String) :
    ∀ (dt : List (String × List String)) (r : String) (dr : List String)
      (v : String),
      dictFind dt r = some dr →
      posOcc s x (dictSet dt r (dr ++ [v])) =
        posOcc s x dt + (if s = dr.length ∧ v = x then 1 else 0) := by
  intro dt
  induction dt with
  | nil => intro r dr v h; simp [dictFind] at h
  | cons p rest ih =>
    intro r dr v h
    by_cases hp : p.1 = r
    · simp only [dictFind, hp, if_true, Option.some_inj] at h
      subst h
      simp only [dictSet, hp, if_true, posOcc, List.countP_cons]
      have harr : ((p.2 ++ [v]).get? s == some x) =
          ((p.2.get? s == some x) || decide (s = p.2.length ∧ v = x)) := by
        simp only [List.get?_eq_getElem?]
        rcases Nat.lt_trichotomy s p.2.length with hs | hs | hs
        · rw [List.getElem?_append_left hs]
          have : ¬ (s = p.2.length ∧ v = x) := fun hc => by omega
          simp [this]
        · subst hs
          rw [List.getElem?_concat_length]
          have : p.2[p.2.length]? = none := List.getElem?_eq_none (le_refl _)
          rw [this]
          by_cases hv : v = x <;> simp [hv]
        · have h1 : (p.2 ++ [v])[s]? = none := by
            apply List.getElem?_eq_none
            simp; omega
          have h2 : p.2[s]? = none := List.getElem?_eq_none (by omega)
          have : ¬ (s = p.2.length ∧ v = x) := fun hc => by omega
          simp [h1, h2, this]
      rw [harr]
      by_cases hb : (p.2.get? s == some x) = true <;>
        by_cases hc : s = p.2.length ∧ v = x <;> simp [hb, hc]
    · simp only [dictFind, hp, if_false] at h
      simp only [dictSet, hp, if_false, posOcc, List.countP_cons]
      have := ih r dr v h
      simp only [posOcc] at this
      omega

theorem posOcc_dictSet_nil_le (s : Nat) (x : String) :
    ∀ (dt : List (String × List String)) (r : String),
      posOcc s x (dictSet dt r []) ≤ posOcc s x dt := by
  intro dt
  induction dt with
  | nil => intro r; simp [dictSet, posOcc, List.countP_cons]
  | cons p rest ih =>
    intro r
    by_cases hp : p.1 = r
    · simp only [dictSet, hp, if_true, posOcc, List.countP_cons]
      have : (([] : List String).get? s == some x) = false := by simp
      rw [this]
      simp
    · simp only [dictSet, hp, if_false, posOcc, List.countP_cons]
      have := ih r
      simp only [posOcc] at this
      omega

end OccLemmas

section FilterLemmas

theorem availFilter_eq (tc : List (String × Nat)) (cap : Nat)
    (sa dr : List String) :
    ∀ ts : List String, (∀ t ∈ ts, (dictFind tc t).isSome) →
      availFilter tc cap sa dr ts = some (ts.filter (eligibleB tc cap sa dr)) := by
  intro ts
  induction ts with
  | nil => intro _; simp [availFilter]
  | cons t rest ih =>
    intro hdom
    obtain ⟨c, hc⟩ := Option.isSome_iff_exists.mp (hdom t (List.mem_cons_self _ _))
    have hrest := ih (fun u hu => hdom u (List.mem_cons_of_mem _ hu))
    have hval : tcVal tc t = c := by simp [tcVal, hc]
    simp only [availFilter, hc, hrest, List.filter_cons]
    by_cases hel : c < cap ∧ t ∉ sa ∧ t ∉ dr
    · have : eligibleB tc cap sa dr t = true := by
        simp [eligibleB, hval]; tauto
      simp [hel, this]
    · have : ¬ (eligibleB tc cap sa dr t = true) := by
        simp [eligibleB, hval]; tauto
      simp [hel, this]

theorem mem_filter_eligible {tc : List (String × Nat)} {cap : Nat}
    {sa dr : List String} {ts : List String} {t : String}
    (h : t ∈ ts.filter (eligibleB tc cap sa dr)) :
    t ∈ ts ∧ tcVal tc t < cap ∧ t ∉ sa ∧ t ∉ dr := by
  have := List.mem_filter.mp h
  refine ⟨this.1, ?_⟩
  have := this.2
  simpa [eligibleB] using this

theorem getD_mem_of_lt : ∀ (l : List String) (n : Nat), n < l.length →
    l.getD n "" ∈ l := by
  intro l
  induction l with
  | nil => intro n h; simp at h
  | cons a rest ih =>
    intro n h
    cases n with
    | zero => simp
    | succ m =>
      have : m < rest.length := by simpa using h
      simpa using Or.inr (ih m this)

end FilterLemmas

section FoldLemmas

theorem foldlM_inv {σ α : Type} (P : σ → Prop) :
    ∀ (l : List α) (f : σ → α → Option σ) (s : σ),
      (∀ t x, x ∈ l → P t → ∃ t', f t x = some t' ∧ P t') →
      P s → ∃ s', l.foldlM f s = some s' ∧ P s' := by
  intro l
  induction l with
  | nil => intro f s _ hs; exact ⟨s, by simp, hs⟩
  | cons a rest ih =>
    intro f s hstep hs
    obtain ⟨t, ht, hPt⟩ := hstep s a (List.mem_cons_self _ _) hs
    obtain ⟨s', hs', hPs'⟩ :=
      ih f t (fun u x hx hu => hstep u x (List.mem_cons_of_mem _ hx) hu) hPt
    exact ⟨s', by simp [List.foldlM_cons, ht, hs'], hPs'⟩

theorem foldlM_inv_idx {σ α : Type} (P : Nat → σ → Prop) :
    ∀ (l : List α) (k : Nat) (f : σ → α → Option σ) (s : σ),
      (∀ j t x, x ∈ l → k ≤ j → j < k + l.length → P j t →
        ∃ t', f t x = some t' ∧ P (j + 1) t') →
      P k s → ∃ s', l.foldlM f s = some s' ∧ P (k + l.length) s' := by
  intro l
  induction l with
  | nil => intro k f s _ hs; exact ⟨s, by simp, by simpa using hs⟩
  | cons a rest ih =>
    intro k f s hstep hs
    obtain ⟨t, ht, hPt⟩ := hstep k s a (List.mem_cons_self _ _) (le_refl _)
      (by simp) hs
    obtain ⟨s', hs', hPs'⟩ := ih (k + 1) f t
      (fun j u x hx hj hj' hu =>
        hstep j u x (List.mem_cons_of_mem _ hx) (by omega)
          (by simp at hj' ⊢; omega) hu)
      hPt
    refine ⟨s', by simp [List.foldlM_cons, ht, hs'], ?_⟩
    have : k + (a :: rest).length = k + 1 + rest.length := by simp; omega
    rw [this]
    exact hPs'

theorem foldlM_inv_range' {σ : Type} (P : Nat → σ → Prop) :
    ∀ (b a : Nat) (f : σ → Nat → Option σ) (s : σ),
      (∀ j t, a ≤ j → j < a + b → P j t → ∃ t', f t j = some t' ∧ P (j + 1) t') →
      P a s → ∃ s', (List.range' a b).foldlM f s = some s' ∧ P (a + b) s' := by
  intro b
  induction b with
  | zero => intro a f s _ hs; exact ⟨s, by simp, by simpa using hs⟩
  | succ m ih =>
    intro a f s hstep hs
    obtain ⟨t, ht, hPt⟩ := hstep a s (le_refl _) (by omega) hs
    obtain ⟨s', hs', hPs'⟩ := ih (a + 1) f t
      (fun j u hj hj' hu => hstep j u (by omega) (by omega) hu) hPt
    refine ⟨s', ?_, ?_⟩
    · rw [List.range'_succ]
      simp [List.foldlM_cons, ht, hs']
    · have : a + (m + 1) = a + 1 + m := by omega
      rw [this]
      exact hPs'

end FoldLemmas

section CountLemmas

theorem countP_le_sum_map (f : String → Nat) :
    ∀ l : List String, l.countP (fun t => decide (1 ≤ f t)) ≤ (l.map f).sum := by
  intro l
  induction l with
  | nil => simp
  | cons a rest ih =>
    simp only [List.countP_cons, List.map_cons, List.sum_cons]
    split
    next hcond =>
      have : 1 ≤ f a := by simpa using hcond
      omega
    next hcond => omega

theorem exists_zero_of_sum_lt (f : String → Nat) (l : List String)
    (h : (l.map f).sum < l.length) : ∃ t ∈ l, f t = 0 := by
  by_contra hc
  push_neg at hc
  have hall : ∀ t ∈ l, decide (1 ≤ f t) = true := by
    intro t ht
    have := hc t ht
    simp
    omega
  have := List.countP_eq_length.mpr hall
  have hle := countP_le_sum_map f l
  omega

theorem sum_map_update_add_one :
    ∀ (l : List String) (f g : String → Nat) (x : String),
      l.Nodup → x ∈ l → (∀ y ∈ l, y ≠ x → g y = f y) → g x = f x + 1 →
      (l.map g).sum = (l.map f).sum + 1 := by
  intro l
  induction l with
  | nil => intro f g x _ hx; simp at hx
  | cons a rest ih =>
    intro f g x hnd hx hoth hgx
    rcases List.mem_cons.mp hx with hax | hx'
    · have hga : g a = f a + 1 := by rw [← hax]; exact hgx
      have hrest : rest.map g = rest.map f := by
        apply List.map_congr_left
        intro y hy
        have hne : y ≠ x := by
          intro hc
          subst hc
          exact (List.nodup_cons.mp hnd).1 (hax ▸ hy)
        exact hoth y (List.mem_cons_of_mem _ hy) hne
      simp only [List.map_cons, List.sum_cons, hrest, hga]
      omega
    · have hne : a ≠ x := by
        intro hc
        subst hc
        exact (List.nodup_cons.mp hnd).1 hx'
      have hga : g a = f a := hoth a (List.mem_cons_self _ _) hne
      have := ih f g x (List.nodup_cons.mp hnd).2 hx'
        (fun y hy hyx => hoth y (List.mem_cons_of_mem _ hy) hyx) hgx
      simp only [List.map_cons, List.sum_cons, hga, this]
      omega

end CountLemmas

section CellStep

/-- Characterization of one cell step: either no teacher passes the filter
and the sentinel is appended to the room, or some teacher passing the
filter is selected, appended, counted and added to the slot roster. -/
theorem processCell_cases (teachers : List String) (cap : Nat) (room : String)
    (st : St) (slot : Nat) (sa dr : List String)
    (hsa : dictFind st.slotAssignments slot = some sa)
    (hdr : dictFind st.dutyTable room = some dr)
    (htc : ∀ t ∈ teachers, (dictFind st.teacherCount t).isSome) :
    (teachers.filter (eligibleB st.teacherCount cap sa dr) = [] ∧
      processCell teachers cap room st slot =
        some { st with dutyTable := dictSet st.dutyTable room (dr ++ [Sentinel]) }) ∨
    (∃ sel, sel ∈ teachers.filter (eligibleB st.teacherCount cap sa dr) ∧
      processCell teachers cap room st slot =
        some { st with
          dutyTable := dictSet st.dutyTable room (dr ++ [sel]),
          teacherCount :=
            dictSet st.teacherCount sel (tcVal st.teacherCount sel + 1),
          slotAssignments := dictSet st.slotAssignments slot (sa ++ [sel]),
          draws := st.draws + 1 }) := by
  have hav := availFilter_eq st.teacherCount cap sa dr teachers htc
  by_cases hemp : teachers.filter (eligibleB st.teacherCount cap sa dr) = []
  · left
    refine ⟨hemp, ?_⟩
    rw [hemp] at hav
    simp [processCell, hsa, hdr, hav]
  · right
    have hlen : 0 < (teachers.filter (eligibleB st.teacherCount cap sa dr)).length :=
      List.length_pos.mpr hemp
    have hid : st.rng st.draws % (teachers.filter (eligibleB st.teacherCount cap sa dr)).length <
        (teachers.filter (eligibleB st.teacherCount cap sa dr)).length :=
      Nat.mod_lt _ hlen
    have hmem := getD_mem_of_lt _ _ hid
    have hselT : (teachers.filter (eligibleB st.teacherCount cap sa dr)).getD
        (st.rng st.draws % (teachers.filter (eligibleB st.teacherCount cap sa dr)).length) "" ∈
        teachers := (List.mem_filter.mp hmem).1
    obtain ⟨c, hc⟩ := Option.isSome_iff_exists.mp (htc _ hselT)
    have hcv : tcVal st.teacherCount
        ((teachers.filter (eligibleB st.teacherCount cap sa dr)).getD
          (st.rng st.draws % (teachers.filter (eligibleB st.teacherCount cap sa dr)).length) "") = c := by
      unfold tcVal
      rw [hc]
      rfl
    have hc' := hc
    simp only [List.getD_eq_getElem?_getD] at hc'
    refine ⟨_, hmem, ?_⟩
    rw [hcv]
    simp [processCell, hsa, hdr, hav, hemp, hc, hc']

theorem processCell_main (teachers : List String) (cap slots : Nat)
    (room : String) (origDT : List (String × List String)) (st : St)
    (slot : Nat) (l : List String)
    (hInv : MainInv teachers cap slots st)
    (hdt : st.dutyTable = dictSet origDT room l)
    (hlen : l.length = slot) (hslot : slot < slots) :
    ∃ st', processCell teachers cap room st slot = some st' ∧
      MainInv teachers cap slots st' ∧
      ∃ v, (v ∈ teachers ∨ v = Sentinel) ∧
        st'.dutyTable = dictSet origDT room (l ++ [v]) := by
  have hdr : dictFind st.dutyTable room = some l := by
    rw [hdt]; exact dictFind_dictSet_self _ _ _
  obtain ⟨sa, hsa⟩ := Option.isSome_iff_exists.mp (hInv.saDom slot hslot)
  have hroomMem : (room, l) ∈ st.dutyTable := dictFind_mem _ _ _ hdr
  have hsaval : saVal st.slotAssignments slot = sa := by simp [saVal, hsa]
  rcases processCell_cases teachers cap room st slot sa l hsa hdr hInv.tcDom with
    ⟨hemp, heq⟩ | ⟨sel, hmem, heq⟩
  · refine ⟨_, heq, ?_, Sentinel, Or.inr rfl, ?_⟩
    · constructor
      · exact hInv.tcDom
      · exact hInv.tcCap
      · exact hInv.saDom
      · intro x hx
        have := totalOcc_dictSet_append x st.dutyTable room l [Sentinel] hdr
        simp only [this]
        have hcnt : ([Sentinel].count x) = 0 := by
          simp [List.count_cons, hx]
        rw [hcnt]
        simpa using hInv.occLe x hx
      · intro s x hs hx
        have := posOcc_dictSet_append s x st.dutyTable room l Sentinel hdr
        simp only [this]
        have hc0 : ¬ (s = l.length ∧ Sentinel = x) := fun hc => hx hc.2.symm
        rw [if_neg hc0]
        simpa using hInv.posLe s x hs hx
      · intro p hp x hx
        rcases mem_dictSet _ _ _ _ hp with hpe | hp'
        · subst hpe
          simp only [List.count_append]
          have h1 := hInv.roomLe (room, l) hroomMem x hx
          have h2 : ([Sentinel].count x) = 0 := by simp [List.count_cons, hx]
          simp at h1 ⊢
          omega
        · exact hInv.roomLe p hp' x hx
      · intro p hp x hx
        rcases mem_dictSet _ _ _ _ hp with hpe | hp'
        · subst hpe
          simp only at hx
          rcases List.mem_append.mp hx with hx | hx
          · exact hInv.cellsMem (room, l) hroomMem x hx
          · right; simpa using hx
        · exact hInv.cellsMem p hp' x hx
    · simp only [hdt, dictSet_dictSet_same]
  · obtain ⟨hselT, hcap, hnsa, hnl⟩ := mem_filter_eligible hmem
    refine ⟨_, heq, ?_, sel, Or.inl hselT, ?_⟩
    · constructor
      · intro t ht
        exact dictFind_isSome_dictSet _ _ _ _ (hInv.tcDom t ht)
      · intro x
        simp only [tcVal_dictSet]
        by_cases hx : x = sel
        · rw [if_pos hx]; omega
        · rw [if_neg hx]; exact hInv.tcCap x
      · intro s hs
        exact dictFind_isSome_dictSet _ _ _ _ (hInv.saDom s hs)
      · intro x hx
        have := totalOcc_dictSet_append x st.dutyTable room l [sel] hdr
        simp only [this, tcVal_dictSet]
        by_cases hxs : x = sel
        · subst hxs
          have hcnt : ([x].count x) = 1 := by simp
          rw [hcnt, if_pos rfl]
          have := hInv.occLe x hx
          omega
        · have hcnt : ([sel].count x) = 0 := by
            simp [List.count_cons]
            exact fun hc => hxs hc.symm
          rw [hcnt, if_neg hxs]
          simpa using hInv.occLe x hx
      · intro s x hs hx
        have := posOcc_dictSet_append s x st.dutyTable room l sel hdr
        simp only [this, saVal_dictSet]
        by_cases hsl : s = slot
        · subst hsl
          rw [if_pos rfl]
          by_cases hxs : x = sel
          · subst hxs
            have hpos : posOcc s x st.dutyTable = 0 := by
              have := hInv.posLe s x hs hx
              rw [hsaval, if_neg hnsa] at this
              omega
            rw [hpos, if_pos ⟨hlen.symm, rfl⟩]
            have : x ∈ sa ++ [x] := List.mem_append.mpr (Or.inr (by simp))
            rw [if_pos this]
          · have hc0 : ¬ (s = l.length ∧ sel = x) := fun hc => hxs hc.2.symm
            rw [if_neg hc0]
            have hmm : x ∈ sa ++ [sel] ↔ x ∈ sa := by
              simp [List.mem_append, hxs]
            have := hInv.posLe s x hs hx
            rw [hsaval] at this
            by_cases hxin : x ∈ sa
            · rw [if_pos (hmm.mpr hxin)]
              rw [if_pos hxin] at this
              omega
            · rw [if_neg (fun hc => hxin (hmm.mp hc))]
              rw [if_neg hxin] at this
              omega
        · have hc0 : ¬ (s = l.length ∧ sel = x) := fun hc => hsl (hlen ▸ hc.1)
          rw [if_neg hc0, if_neg hsl]
          simpa using hInv.posLe s x hs hx
      · intro p hp x hx
        rcases mem_dictSet _ _ _ _ hp with hpe | hp'
        · subst hpe
          simp only [List.count_append]
          have h1 := hInv.roomLe (room, l) hroomMem x hx
          simp at h1 ⊢
          by_cases hxs : x = sel
          · subst hxs
            have : l.count x = 0 := List.count_eq_zero.mpr hnl
            simp [this]
          · have : ([sel].count x) = 0 := by
              simp [List.count_cons]
              exact fun hc => hxs hc.symm
            simp at this
            omega
        · exact hInv.roomLe p hp' x hx
      · intro p hp x hx
        rcases mem_dictSet _ _ _ _ hp with hpe | hp'
        · subst hpe
          simp only at hx
          rcases List.mem_append.mp hx with hx | hx
          · exact hInv.cellsMem (room, l) hroomMem x hx
          · left
            have : x = sel := by simpa using hx
            subst this
            exact hselT
        · exact hInv.cellsMem p hp' x hx
    · simp only [hdt, dictSet_dictSet_same]

end CellStep

section RunInv

theorem processRoom_main (teachers : List String) (cap slots : Nat) (st : St)
    (room : String) (hInv : MainInv teachers cap slots st)
    (hlenAll : ∀ p ∈ st.dutyTable, p.2.length = slots) :
    ∃ st', processRoom teachers cap slots st room = some st' ∧
      MainInv teachers cap slots st' ∧
      ∀ p ∈ st'.dutyTable, p.2.length = slots := by
  have hreset : MainInv teachers cap slots
      { st with dutyTable := dictSet st.dutyTable room [] } := by
    constructor
    · exact hInv.tcDom
    · exact hInv.tcCap
    · exact hInv.saDom
    · intro x hx
      exact le_trans (totalOcc_dictSet_nil_le x st.dutyTable room) (hInv.occLe x hx)
    · intro s x hs hx
      exact le_trans (posOcc_dictSet_nil_le s x st.dutyTable room)
        (hInv.posLe s x hs hx)
    · intro p hp x hx
      rcases mem_dictSet _ _ _ _ hp with hpe | hp'
      · subst hpe; simp
      · exact hInv.roomLe p hp' x hx
    · intro p hp x hx
      rcases mem_dictSet _ _ _ _ hp with hpe | hp'
      · subst hpe; simp at hx
      · exact hInv.cellsMem p hp' x hx
  obtain ⟨st', hfold, hP⟩ := foldlM_inv_range'
    (fun j u => MainInv teachers cap slots u ∧
      ∃ l, u.dutyTable = dictSet st.dutyTable room l ∧ l.length = j)
    slots 0 (processCell teachers cap room)
    { st with dutyTable := dictSet st.dutyTable room [] }
    (by
      intro j u hj hj' hu
      obtain ⟨huInv, l, hdtu, hlenu⟩ := hu
      obtain ⟨u', heq, huInv', v, hv, hdtu'⟩ := processCell_main teachers cap
        slots room st.dutyTable u j l huInv hdtu hlenu (by omega)
      exact ⟨u', heq, huInv', l ++ [v], hdtu', by simp [hlenu]⟩)
    (⟨hreset, [], rfl, rfl⟩)
  refine ⟨st', ?_, hP.1, ?_⟩
  · unfold processRoom
    rw [List.range_eq_range']
    simpa using hfold
  · obtain ⟨_, l, hdt', hlen'⟩ := hP
    intro p hp
    rw [hdt'] at hp
    rcases mem_dictSet _ _ _ _ hp with hpe | hp'
    · subst hpe
      simpa using hlen'
    · exact hlenAll p hp'

theorem rooms_fold_main (teachers : List String) (cap slots : Nat)
    (rooms : List String) (st : St) (hInv : MainInv teachers cap slots st)
    (hlenAll : ∀ p ∈ st.dutyTable, p.2.length = slots) :
    ∃ st', rooms.foldlM (processRoom teachers cap slots) st = some st' ∧
      MainInv teachers cap slots st' ∧
      ∀ p ∈ st'.dutyTable, p.2.length = slots := by
  obtain ⟨st', hfold, hP⟩ := foldlM_inv
    (fun u => MainInv teachers cap slots u ∧ ∀ p ∈ u.dutyTable, p.2.length = slots)
    rooms (processRoom teachers cap slots) st
    (by
      intro u r _ hu
      obtain ⟨u', heq, hu'⟩ := processRoom_main teachers cap slots u r hu.1 hu.2
      exact ⟨u', heq, hu'.1, hu'.2⟩)
    ⟨hInv, hlenAll⟩
  exact ⟨st', hfold, hP.1, hP.2⟩

theorem initTC_find (teachers : List String) (t : String) :
    dictFind (initTC teachers) t = if t ∈ teachers then some 0 else none := by
  unfold initTC
  rw [foldl_dictSet_const]
  simp [dictFind]

theorem initSA_find (slots s : Nat) :
    dictFind (initSA slots) s = if s < slots then some [] else none := by
  unfold initSA
  rw [foldl_dictSet_const]
  simp [List.mem_range, dictFind]

theorem init_main (teachers : List String) (cap slots : Nat) (rng : Nat → Nat) :
    MainInv teachers cap slots
      { dutyTable := [], teacherCount := initTC teachers,
        slotAssignments := initSA slots, rng := rng, draws := 0 } := by
  constructor
  · intro t ht
    simp [initTC_find, ht]
  · intro x
    unfold tcVal
    rw [initTC_find]
    by_cases hx : x ∈ teachers <;> simp [hx]
  · intro s hs
    simp [initSA_find, hs]
  · intro x _
    simp [totalOcc, tcVal]
  · intro s x _ _
    simp [posOcc]
  · intro p hp
    simp at hp
  · intro p hp
    simp at hp

/-- Combined run-level facts about `generate_duty_list`: it always returns
a result, every non-sentinel string occurs at most `capacity` many times in
total, at most once per slot position, at most once per room, every room
sequence has length `slots`, and every cell is a teacher or the sentinel. -/
theorem gdl_spec (rooms teachers : List String) (slots : Nat)
    (rng : Nat → Nat) :
    ∃ a c, generate_duty_list rooms teachers slots rng = some (a, c) ∧
      (∀ x, x ≠ Sentinel → totalOcc x a ≤ c) ∧
      (∀ s x, s < slots → x ≠ Sentinel → posOcc s x a ≤ 1) ∧
      (∀ p ∈ a, ∀ x, x ≠ Sentinel → p.2.count x ≤ 1) ∧
      (∀ p ∈ a, p.2.length = slots) ∧
      (∀ p ∈ a, ∀ x ∈ p.2, x ∈ teachers ∨ x = Sentinel) := by
  by_cases hT : teachers.length = 0
  · refine ⟨[], 0, ?_, ?_, ?_, ?_, ?_, ?_⟩
    · simp [generate_duty_list, hT]
    · intro x _; simp [totalOcc]
    · intro s x _ _; simp [posOcc]
    · intro p hp; simp at hp
    · intro p hp; simp at hp
    · intro p hp; simp at hp
  · obtain ⟨st', hfold, hInv, hlen⟩ := rooms_fold_main teachers
      (ceilDiv (rooms.length * slots) teachers.length) slots rooms
      { dutyTable := [], teacherCount := initTC teachers,
        slotAssignments := initSA slots, rng := rng, draws := 0 }
      (init_main teachers _ slots rng) (by intro p hp; simp at hp)
    refine ⟨st'.dutyTable, ceilDiv (rooms.length * slots) teachers.length,
      ?_, ?_, ?_, ?_, hlen, hInv.cellsMem⟩
    · simp [generate_duty_list, hT, hfold]
    · intro x hx
      exact le_trans (hInv.occLe x hx) (hInv.tcCap x)
    · intro s x hs hx
      refine le_trans (hInv.posLe s x hs hx) ?_
      split <;> omega
    · exact hInv.roomLe

end RunInv

section FullInv

theorem processCell_full (teachers : List String) (cap slots : Nat)
    (room : String) (origDT : List (String × List String)) (st : St)
    (slot : Nat) (l : List String) (k : Nat)
    (hInv : MainInv teachers cap slots st) (h6 : Inv6 teachers st)
    (hnd : teachers.Nodup)
    (hsum : sumTC teachers st.teacherCount ≤ k) (hk : k < teachers.length)
    (hcap : 1 ≤ cap)
    (hdt : st.dutyTable = dictSet origDT room l)
    (hlen : l.length = slot) (hslot : slot < slots) :
    ∃ st', processCell teachers cap room st slot = some st' ∧
      MainInv teachers cap slots st' ∧ Inv6 teachers st' ∧
      sumTC teachers st'.teacherCount ≤ k + 1 ∧
      ∃ v, v ∈ teachers ∧ st'.dutyTable = dictSet origDT room (l ++ [v]) := by
  have hdr : dictFind st.dutyTable room = some l := by
    rw [hdt]; exact dictFind_dictSet_self _ _ _
  obtain ⟨sa, hsa⟩ := Option.isSome_iff_exists.mp (hInv.saDom slot hslot)
  have hroomMem : (room, l) ∈ st.dutyTable := dictFind_mem _ _ _ hdr
  have hsaval : saVal st.slotAssignments slot = sa := by simp [saVal, hsa]
  obtain ⟨t, htT, ht0⟩ := exists_zero_of_sum_lt (tcVal st.teacherCount)
    teachers (lt_of_le_of_lt hsum hk)
  have htsa : t ∉ sa := by
    intro hc
    have := h6.saPos slot t (hsaval ▸ hc)
    omega
  have htl : t ∉ l := by
    intro hc
    have := h6.cellsPos (room, l) hroomMem t hc
    omega
  have htfil : t ∈ teachers.filter (eligibleB st.teacherCount cap sa l) := by
    refine List.mem_filter.mpr ⟨htT, ?_⟩
    simp only [eligibleB, decide_eq_true_eq]
    exact ⟨by omega, htsa, htl⟩
  rcases processCell_cases teachers cap room st slot sa l hsa hdr hInv.tcDom with
    ⟨hemp, _⟩ | ⟨sel, hmem, heq⟩
  · rw [hemp] at htfil
    simp at htfil
  · obtain ⟨hselT, hselCap, hselSa, hselL⟩ := mem_filter_eligible hmem
    obtain ⟨st'', heq'', hInv'', _⟩ := processCell_main teachers cap slots
      room origDT st slot l hInv hdt hlen hslot
    rw [heq] at heq''
    have hst'' := Option.some_inj.mp heq''
    subst hst''
    have tcMono : ∀ x, tcVal st.teacherCount x ≤
        tcVal (dictSet st.teacherCount sel (tcVal st.teacherCount sel + 1)) x := by
      intro x
      rw [tcVal_dictSet]
      by_cases hx : x = sel
      · subst hx; simp
      · simp [hx]
    refine ⟨_, heq, hInv'', ?_, ?_, sel, hselT, ?_⟩
    · constructor
      · intro x n hfind
        rcases dictFind_dictSet_cases _ _ _ _ _ hfind with ⟨hx, _⟩ | hold
        · subst hx; exact hselT
        · exact h6.tcSupp x n hold
      · intro p hp x hx
        simp only at hp
        rcases mem_dictSet _ _ _ _ hp with hpe | hp'
        · subst hpe
          simp only at hx
          rcases List.mem_append.mp hx with hx | hx
          · exact le_trans (h6.cellsPos (room, l) hroomMem x hx) (tcMono x)
          · have : x = sel := by simpa using hx
            subst this
            rw [tcVal_dictSet, if_pos rfl]
            omega
        · exact le_trans (h6.cellsPos p hp' x hx) (tcMono x)
      · intro s x hx
        simp only [saVal_dictSet] at hx
        by_cases hs : s = slot
        · rw [if_pos hs] at hx
          rcases List.mem_append.mp hx with hx | hx
          · exact le_trans (h6.saPos s x (by rw [hs, hsaval]; exact hx) |>.trans
              (le_refl _)) (tcMono x)
          · have : x = sel := by simpa using hx
            subst this
            rw [tcVal_dictSet, if_pos rfl]
            omega
        · rw [if_neg hs] at hx
          exact le_trans (h6.saPos s x hx) (tcMono x)
    · have hupd : sumTC teachers
          (dictSet st.teacherCount sel (tcVal st.teacherCount sel + 1)) =
          sumTC teachers st.teacherCount + 1 := by
        unfold sumTC
        apply sum_map_update_add_one teachers (tcVal st.teacherCount) _ sel hnd hselT
        · intro y _ hy
          rw [tcVal_dictSet, if_neg hy]
        · rw [tcVal_dictSet, if_pos rfl]
      simp only at hupd ⊢
      omega
    · simp only [hdt, dictSet_dictSet_same]

theorem processRoom_full (teachers : List String) (cap slots : Nat) (st : St)
    (room : String) (i : Nat)
    (hInv : MainInv teachers cap slots st) (h6 : Inv6 teachers st)
    (hnd : teachers.Nodup)
    (hsum : sumTC teachers st.teacherCount ≤ i * slots)
    (hbound : (i + 1) * slots ≤ teachers.length)
    (hcap : 0 < slots → 1 ≤ cap)
    (hlenAll : ∀ p ∈ st.dutyTable, p.2.length = slots) :
    ∃ st', processRoom teachers cap slots st room = some st' ∧
      MainInv teachers cap slots st' ∧ Inv6 teachers st' ∧
      sumTC teachers st'.teacherCount ≤ (i + 1) * slots ∧
      ∀ p ∈ st'.dutyTable, p.2.length = slots := by
  have hreset6 : Inv6 teachers
      { st with dutyTable := dictSet st.dutyTable room [] } := by
    constructor
    · exact h6.tcSupp
    · intro p hp x hx
      rcases mem_dictSet _ _ _ _ hp with hpe | hp'
      · subst hpe; simp at hx
      · exact h6.cellsPos p hp' x hx
    · exact h6.saPos
  have hresetM : MainInv teachers cap slots
      { st with dutyTable := dictSet st.dutyTable room [] } := by
    obtain ⟨st₁, heq₁, hInv₁, _⟩ := processRoom_main teachers cap slots st room hInv hlenAll
    constructor
    · exact hInv.tcDom
    · exact hInv.tcCap
    · exact hInv.saDom
    · intro x hx
      exact le_trans (totalOcc_dictSet_nil_le x st.dutyTable room) (hInv.occLe x hx)
    · intro s x hs hx
      exact le_trans (posOcc_dictSet_nil_le s x st.dutyTable room)
        (hInv.posLe s x hs hx)
    · intro p hp x hx
      rcases mem_dictSet _ _ _ _ hp with hpe | hp'
      · subst hpe; simp
      · exact hInv.roomLe p hp' x hx
    · intro p hp x hx
      rcases mem_dictSet _ _ _ _ hp with hpe | hp'
      · subst hpe; simp at hx
      · exact hInv.cellsMem p hp' x hx
  obtain ⟨st', hfold, hP⟩ := foldlM_inv_range'
    (fun j u => (MainInv teachers cap slots u ∧ Inv6 teachers u ∧
      sumTC teachers u.teacherCount ≤ i * slots + j) ∧
      ∃ l, u.dutyTable = dictSet st.dutyTable room l ∧ l.length = j)
    slots 0 (processCell teachers cap room)
    { st with dutyTable := dictSet st.dutyTable room [] }
    (by
      intro j u hj hj' hu
      obtain ⟨⟨huM, hu6, husum⟩, l, hdtu, hlenu⟩ := hu
      have hjs : j < slots := by omega
      have hkT : i * slots + j < teachers.length := by
        have h1 : i * slots + j + 1 ≤ (i + 1) * slots := by
          have hms : (i + 1) * slots = i * slots + slots := by ring
          omega
        omega
      obtain ⟨u', heq, huM', hu6', husum', v, hvT, hdtu'⟩ :=
        processCell_full teachers cap slots room st.dutyTable u j l
          (i * slots + j) huM hu6 hnd husum hkT (hcap (by omega)) hdtu hlenu hjs
      exact ⟨u', heq, ⟨huM', hu6', by omega⟩, l ++ [v], hdtu', by simp [hlenu]⟩)
    (⟨⟨hresetM, hreset6, by simpa using hsum⟩, [], rfl, rfl⟩)
  obtain ⟨⟨hM', h6', hsum'⟩, l, hdt', hlen'⟩ := hP
  refine ⟨st', ?_, hM', h6', ?_, ?_⟩
  · unfold processRoom
    rw [List.range_eq_range']
    simpa using hfold
  · have hms : (i + 1) * slots = i * slots + slots := by ring
    omega
  · intro p hp
    rw [hdt'] at hp
    rcases mem_dictSet _ _ _ _ hp with hpe | hp'
    · subst hpe
      simpa using hlen'
    · exact hlenAll p hp'

theorem rooms_fold_full (teachers : List String) (cap slots : Nat)
    (rooms : List String) (st : St)
    (hInv : MainInv teachers cap slots st) (h6 : Inv6 teachers st)
    (hnd : teachers.Nodup)
    (hsum : sumTC teachers st.teacherCount ≤ 0 * slots)
    (hfeas : rooms.length * slots ≤ teachers.length)
    (hcap : rooms ≠ [] → 0 < slots → 1 ≤ cap)
    (hlenAll : ∀ p ∈ st.dutyTable, p.2.length = slots) :
    ∃ st', rooms.foldlM (processRoom teachers cap slots) st = some st' ∧
      MainInv teachers cap slots st' ∧ Inv6 teachers st' ∧
      ∀ p ∈ st'.dutyTable, p.2.length = slots := by
  obtain ⟨st', hfold, hP⟩ := foldlM_inv_idx
    (fun i u => MainInv teachers cap slots u ∧ Inv6 teachers u ∧
      sumTC teachers u.teacherCount ≤ i * slots ∧
      ∀ p ∈ u.dutyTable, p.2.length = slots)
    rooms 0 (processRoom teachers cap slots) st
    (by
      intro i u r hr hi hi' hu
      obtain ⟨huM, hu6, husum, hulen⟩ := hu
      have hcap' : 0 < slots → 1 ≤ cap := hcap (List.ne_nil_of_mem hr)
      have hb : (i + 1) * slots ≤ teachers.length := by
        have h1 : (i + 1) * slots ≤ rooms.length * slots :=
          Nat.mul_le_mul_right slots (by simpa using hi')
        omega
      obtain ⟨u', heq, huM', hu6', husum', hulen'⟩ :=
        processRoom_full teachers cap slots u r i huM hu6 hnd husum hb hcap' hulen
      exact ⟨u', heq, huM', hu6', husum', hulen'⟩)
    ⟨hInv, h6, hsum, hlenAll⟩
  exact ⟨st', hfold, hP.1, hP.2.1, hP.2.2.2⟩

theorem init_inv6 (teachers : List String) (slots : Nat) (rng : Nat → Nat) :
    Inv6 teachers
      { dutyTable := [], teacherCount := initTC teachers,
        slotAssignments := initSA slots, rng := rng, draws := 0 } := by
  constructor
  · intro x n hfind
    simp only at hfind
    rw [initTC_find] at hfind
    by_cases hx : x ∈ teachers
    · exact hx
    · simp [hx] at hfind
  · intro p hp
    simp at hp
  · intro s x hx
    simp only [saVal] at hx
    rw [initSA_find] at hx
    by_cases hs : s < slots <;> simp [hs] at hx

theorem init_sumTC (teachers : List String) :
    sumTC teachers (initTC teachers) = 0 := by
  unfold sumTC
  apply List.sum_eq_zero
  intro n hn
  obtain ⟨t, ht, hval⟩ := List.mem_map.mp hn
  rw [← hval]
  unfold tcVal
  rw [initTC_find, if_pos ht]
  rfl

theorem ceilDiv_pos (a b : Nat) (ha : 1 ≤ a) (hb : 1 ≤ b) : 1 ≤ ceilDiv a b := by
  unfold ceilDiv
  rw [Nat.le_div_iff_mul_le hb]
  omega

/-- Under distinct teachers with at least as many teachers as cells, every
room sequence of the result is full: each of its `slots` entries is a genuine
teacher from the input list. -/
theorem gdl_full (rooms teachers : List String) (slots : Nat)
    (rng : Nat → Nat) (hnd : teachers.Nodup)
    (hfeas : rooms.length * slots ≤ teachers.length) :
    ∃ a c, generate_duty_list rooms teachers slots rng = some (a, c) ∧
      ∀ p ∈ a, p.2.length = slots ∧ ∀ x ∈ p.2, x ∈ teachers := by
  by_cases hT : teachers.length = 0
  · refine ⟨[], 0, by simp [generate_duty_list, hT], ?_⟩
    intro p hp
    simp at hp
  · have hcap : rooms ≠ [] → 0 < slots →
        1 ≤ ceilDiv (rooms.length * slots) teachers.length := by
      intro hne hs
      have hR : 0 < rooms.length := List.length_pos.mpr hne
      exact ceilDiv_pos _ _ (Nat.mul_pos hR hs) (by omega)
    obtain ⟨st', hfold, _, h6, hlen⟩ := rooms_fold_full teachers
      (ceilDiv (rooms.length * slots) teachers.length) slots rooms
      { dutyTable := [], teacherCount := initTC teachers,
        slotAssignments := initSA slots, rng := rng, draws := 0 }
      (init_main teachers _ slots rng) (init_inv6 teachers slots rng) hnd
      (by simp [init_sumTC]) hfeas hcap (by intro p hp; simp at hp)
    refine ⟨st'.dutyTable, ceilDiv (rooms.length * slots) teachers.length,
      by simp [generate_duty_list, hT, hfold], ?_⟩
    intro p hp
    refine ⟨hlen p hp, ?_⟩
    intro x hx
    have hpos := h6.cellsPos p hp x hx
    unfold tcVal at hpos
    cases hfind : dictFind st'.teacherCount x with
    | none => rw [hfind] at hpos; simp at hpos
    | some n => exact h6.tcSupp x n hfind

end FullInv

section Claims

theorem ceilDiv_eq_zero_iff (a b : Nat) (hb : 1 ≤ b) :
    ceilDiv a b = 0 ↔ a = 0 := by
  unfold ceilDiv
  constructor
  · intro h
    by_contra ha
    have h1 : 1 ≤ (a + b - 1) / b := by
      rw [Nat.le_div_iff_mul_le hb]
      omega
    omega
  · intro h
    subst h
    have hlt : 0 + b - 1 < b := by omega
    exact Nat.div_eq_of_lt hlt

/-- C1, counterexample to the claim as stated: with the distinct teachers
`["A", "No Available Teacher"]`, two rooms and three slots, the teacher whose
name equals the in-band sentinel occurs four times among the cells of the
returned assignment while the returned capacity is three, because sentinel
cells are indistinguishable from that teacher. -/
theorem c1_sentinel_name_breaks_capacity_bound :
    generate_duty_list ["R1", "R2"] ["A", Sentinel] 3 (fun _ => 1) =
      some ([("R1", [Sentinel, "A", Sentinel]),
             ("R2", ["A", Sentinel, Sentinel])], 3) ∧
    (["A", Sentinel] : List String).Nodup ∧
    Sentinel ∈ (["A", Sentinel] : List String) ∧
    ¬ totalOcc Sentinel
        [("R1", [Sentinel, "A", Sentinel]),
         ("R2", ["A", Sentinel, Sentinel])] ≤ 3 :=
  ⟨by decide, by decide, by decide, by decide⟩

/-- C1, amended: for every input with distinct teachers and every teacher
other than one literally named "No Available Teacher", the total number of
occurrences of that teacher across all cells of the assignment returned by
`generate_duty_list` is at most the returned capacity; the bound comes from
the eligibility filter maintaining every duty counter at most the capacity. -/
theorem c1_total_occurrences_le_capacity (rooms teachers : List String)
    (slots : Nat) (rng : Nat → Nat) (a : List (String × List String)) (c : Nat)
    (hnd : teachers.Nodup)
    (hrun : generate_duty_list rooms teachers slots rng = some (a, c))
    (t : String) (ht : t ∈ teachers) (hts : t ≠ Sentinel) :
    totalOcc t a ≤ c := by
  obtain ⟨a', c', hrun', hocc, _⟩ := gdl_spec rooms teachers slots rng
  rw [hrun] at hrun'
  simp only [Option.some.injEq, Prod.mk.injEq] at hrun'
  obtain ⟨rfl, rfl⟩ := hrun'
  exact hocc t hts

theorem c1_total_occurrences_le_capacity_witness :
    totalOcc "A" [("R1", ["A"])] ≤ 1 :=
  c1_total_occurrences_le_capacity ["R1"] ["A"] 1 (fun _ => 0)
    [("R1", ["A"])] 1 (by decide) (by decide) "A" (by decide) (by decide)

/-- C2, counterexample to the claim as stated: with the single teacher named
"No Available Teacher", two rooms and one slot, that teacher name appears in
both rooms at slot position 0 of the returned assignment, because the second
room's cell is the indistinguishable sentinel. -/
theorem c2_sentinel_name_double_books_slot :
    generate_duty_list ["R1", "R2"] [Sentinel] 1 (fun _ => 0) =
      some ([("R1", [Sentinel]), ("R2", [Sentinel])], 2) ∧
    ¬ posOcc 0 Sentinel [("R1", [Sentinel]), ("R2", [Sentinel])] ≤ 1 :=
  ⟨by decide, by decide⟩

/-- C2, amended: for every input, every slot index below the slot count and
every string other than the in-band sentinel "No Available Teacher", at most
one room of the assignment returned by `generate_duty_list` holds that
string at that slot position (no double-booking within a slot). -/
theorem c2_slot_no_double_booking (rooms teachers : List String)
    (slots : Nat) (rng : Nat → Nat) (a : List (String × List String)) (c : Nat)
    (hrun : generate_duty_list rooms teachers slots rng = some (a, c))
    (s : Nat) (hs : s < slots) (t : String) (hts : t ≠ Sentinel) :
    posOcc s t a ≤ 1 := by
  obtain ⟨a', c', hrun', _, hpos, _⟩ := gdl_spec rooms teachers slots rng
  rw [hrun] at hrun'
  simp only [Option.some.injEq, Prod.mk.injEq] at hrun'
  obtain ⟨rfl, rfl⟩ := hrun'
  exact hpos s t hs hts

theorem c2_slot_no_double_booking_witness :
    posOcc 0 "A" [("R1", ["A"])] ≤ 1 :=
  c2_slot_no_double_booking ["R1"] ["A"] 1 (fun _ => 0) [("R1", ["A"])] 1
    (by decide) 0 (by decide) "A" (by decide)

/-- C3, counterexample to the claim as stated: with the single teacher named
"No Available Teacher", one room and two slots, that teacher name appears
twice inside the room sequence of the returned assignment, once as a genuine
assignment and once as the indistinguishable sentinel. -/
theorem c3_sentinel_name_repeats_in_room :
    generate_duty_list ["R1"] [Sentinel] 2 (fun _ => 0) =
      some ([("R1", [Sentinel, Sentinel])], 2) ∧
    ¬ ([Sentinel, Sentinel] : List String).count Sentinel ≤ 1 :=
  ⟨by decide, by decide⟩

/-- C3, amended: for every input, every room entry of the assignment
returned by `generate_duty_list` and every string other than the in-band
sentinel "No Available Teacher", that string occurs at most once in the
room's slot sequence (no repeat within a room). -/
theorem c3_room_no_repeat (rooms teachers : List String)
    (slots : Nat) (rng : Nat → Nat) (a : List (String × List String)) (c : Nat)
    (hrun : generate_duty_list rooms teachers slots rng = some (a, c))
    (p : String × List String) (hp : p ∈ a) (t : String) (hts : t ≠ Sentinel) :
    p.2.count t ≤ 1 := by
  obtain ⟨a', c', hrun', _, _, hroom, _⟩ := gdl_spec rooms teachers slots rng
  rw [hrun] at hrun'
  simp only [Option.some.injEq, Prod.mk.injEq] at hrun'
  obtain ⟨rfl, rfl⟩ := hrun'
  exact hroom p hp t hts

theorem c3_room_no_repeat_witness :
    (("R1", ["A"]) : String × List String).2.count "A" ≤ 1 :=
  c3_room_no_repeat ["R1"] ["A"] 1 (fun _ => 0) [("R1", ["A"])] 1
    (by decide) ("R1", ["A"]) (by decide) "A" (by decide)

/-- C4, counterexample to the claim as stated: with rooms `["R1"]`, an empty
teacher list and two slots, `generate_duty_list` returns the empty mapping
with capacity 0, not a mapping sending room "R1" to two sentinel cells. -/
theorem c4_empty_teachers_counterexample :
    generate_duty_list ["R1"] [] 2 (fun _ => 0) = some ([], 0) ∧
    generate_duty_list ["R1"] [] 2 (fun _ => 0) ≠
      some ([("R1", [Sentinel, Sentinel])], 0) :=
  ⟨by decide, by decide⟩

/-- C4, amended: for every rooms sequence, slot count and random stream, if
the teachers sequence is empty then `generate_duty_list` takes its early
return and yields the empty assignment together with capacity 0 (the
per-room sentinel filling described by the claim is what `generate_slot_duty`
does, not `generate_duty_list`). -/
theorem c4_empty_teachers_empty_assignment (rooms : List String)
    (slots : Nat) (rng : Nat → Nat) :
    generate_duty_list rooms [] slots rng = some ([], 0) := by
  simp [generate_duty_list]

/-- C5, counterexample to the claim as stated: with a non-empty teacher list
but no rooms, the returned capacity is 0 even though the teacher count is
not 0, refuting the claimed equivalence. -/
theorem c5_zero_capacity_with_teachers :
    generate_duty_list [] ["A"] 1 (fun _ => 0) = some ([], 0) ∧
    (["A"] : List String) ≠ [] ∧
    calculate_max_duties 0 1 1 = 0 :=
  ⟨by decide, by decide, by decide⟩

/-- C5, amended: the capacity returned by `generate_duty_list` (and the
value of `calculate_max_duties`) is 0 exactly when the teacher list is empty
or there are no cells to fill, i.e. the room count times the slot count
is 0. -/
theorem c5_capacity_zero_iff :
    (∀ (rooms teachers : List String) (slots : Nat) (rng : Nat → Nat)
      (a : List (String × List String)) (c : Nat),
      generate_duty_list rooms teachers slots rng = some (a, c) →
      (c = 0 ↔ teachers = [] ∨ rooms.length * slots = 0)) ∧
    (∀ r s t : Nat, calculate_max_duties r s t = 0 ↔ (t = 0 ∨ r * s = 0)) := by
  constructor
  · intro rooms teachers slots rng a c hrun
    by_cases hT : teachers.length = 0
    · have hemp : teachers = [] := List.length_eq_zero.mp hT
      rw [generate_duty_list, if_pos hT] at hrun
      simp only [Option.some.injEq, Prod.mk.injEq] at hrun
      simp [hemp, ← hrun.2]
    · simp only [generate_duty_list, if_neg hT, Option.map_eq_some'] at hrun
      obtain ⟨st, _, heq⟩ := hrun
      have hc : c = ceilDiv (rooms.length * slots) teachers.length := by
        have := congrArg Prod.snd heq
        simpa using this.symm
      subst hc
      have hTne : teachers ≠ [] := fun h => hT (by simp [h])
      rw [ceilDiv_eq_zero_iff _ _ (by omega)]
      constructor
      · intro h
        exact Or.inr h
      · intro h
        rcases h with h | h
        · exact absurd h hTne
        · exact h
  · intro r s t
    by_cases ht : t = 0
    · simp [calculate_max_duties, ht]
    · rw [calculate_max_duties, if_neg ht,
        ceilDiv_eq_zero_iff _ _ (by omega)]
      constructor
      · intro h
        exact Or.inr h
      · intro h
        rcases h with h | h
        · exact absurd h ht
        · exact h

theorem c5_capacity_zero_iff_witness :
    ((0 : Nat) = 0 ↔ (["A"] : List String) = [] ∨
      ([] : List String).length * 1 = 0) ∧
    (calculate_max_duties 0 1 1 = 0 ↔ ((1 : Nat) = 0 ∨ 0 * 1 = 0)) :=
  ⟨c5_capacity_zero_iff.1 [] ["A"] 1 (fun _ => 0) [] 0 (by decide),
   c5_capacity_zero_iff.2 0 1 1⟩

/-- C6, counterexample to the claim as stated: with the single (distinct)
teacher named "No Available Teacher", one room and one slot, the hypotheses
of the claim hold, every cell is a genuinely assigned teacher, and yet the
sentinel string does appear in the returned assignment, because that
teacher's name is the sentinel. -/
theorem c6_sentinel_name_in_full_assignment :
    generate_duty_list ["R1"] [Sentinel] 1 (fun _ => 0) =
      some ([("R1", [Sentinel])], 1) ∧
    (["R1"] : List String).length * 1 ≤ ([Sentinel] : List String).length ∧
    ([Sentinel] : List String).Nodup ∧
    totalOcc Sentinel [("R1", [Sentinel])] ≠ 0 :=
  ⟨by decide, by decide, by decide, by decide⟩

/-- C6, amended: for every input with distinct teachers, none of them named
the in-band sentinel "No Available Teacher", and at least as many teachers
as cells, every room entry of the assignment returned by
`generate_duty_list` has exactly one cell per slot, and every cell holds a
concrete teacher from the input list; the sentinel appears nowhere. -/
theorem c6_enough_teachers_all_cells_filled (rooms teachers : List String)
    (slots : Nat) (rng : Nat → Nat) (a : List (String × List String)) (c : Nat)
    (hnd : teachers.Nodup) (hsent : Sentinel ∉ teachers)
    (hfeas : rooms.length * slots ≤ teachers.length)
    (hrun : generate_duty_list rooms teachers slots rng = some (a, c))
    (p : String × List String) (hp : p ∈ a) :
    p.2.length = slots ∧ ∀ x ∈ p.2, x ∈ teachers ∧ x ≠ Sentinel := by
  obtain ⟨a', c', hrun', hfull⟩ := gdl_full rooms teachers slots rng hnd hfeas
  rw [hrun] at hrun'
  simp only [Option.some.injEq, Prod.mk.injEq] at hrun'
  obtain ⟨rfl, rfl⟩ := hrun'
  obtain ⟨hlen, hmem⟩ := hfull p hp
  refine ⟨hlen, fun x hx => ⟨hmem x hx, fun hc => hsent (hc ▸ hmem x hx)⟩⟩

theorem c6_enough_teachers_all_cells_filled_witness :
    ("A" : String) ∈ (["A", "B", "C", "D"] : List String) ∧
      ("A" : String) ≠ Sentinel :=
  (c6_enough_teachers_all_cells_filled ["R1", "R2"] ["A", "B", "C", "D"] 2
    (fun _ => 0) [("R1", ["A", "B"]), ("R2", ["C", "D"])] 1
    (by decide) (by decide) (by decide) (by decide)
    ("R1", ["A", "B"]) (by decide)).2 "A" (by decide)

/-- C7, counterexample to the claim as stated: on an empty teacher list the
two implementations disagree, `generate_slot_duty` fills the room with a
sentinel cell while `generate_duty_list` early-returns the empty mapping. -/
theorem c7_empty_teachers_disagreement :
    generate_slot_duty ["R1"] [] 1 (fun _ => 0) =
      some ([("R1", [Sentinel])], 0) ∧
    generate_duty_list ["R1"] [] 1 (fun _ => 0) = some ([], 0) ∧
    generate_slot_duty ["R1"] [] 1 (fun _ => 0) ≠
      generate_duty_list ["R1"] [] 1 (fun _ => 0) :=
  ⟨by decide, by decide, by decide⟩

/-- C7, amended: whenever the teacher list is non-empty, `generate_duty_list`
from `allocator.py` and `generate_slot_duty` from `app.py` run the same
converged algorithm: on identical inputs and an identical random stream they
return identical assignment and capacity; they differ exactly on the empty
teacher list, where only the allocator takes its early return. -/
theorem c7_equal_on_nonempty_teachers (rooms teachers : List String)
    (slots : Nat) (rng : Nat → Nat) (h : teachers ≠ []) :
    generate_slot_duty rooms teachers slots rng =
      generate_duty_list rooms teachers slots rng := by
  have hT : teachers.length ≠ 0 := fun hc => h (List.length_eq_zero.mp hc)
  simp only [generate_slot_duty, generate_duty_list, calculate_max_duties,
    if_neg hT]

theorem c7_equal_on_nonempty_teachers_witness :
    generate_slot_duty ["R1"] ["A"] 1 (fun _ => 0) =
      generate_duty_list ["R1"] ["A"] 1 (fun _ => 0) :=
  c7_equal_on_nonempty_teachers ["R1"] ["A"] 1 (fun _ => 0) (by decide)

/-- C8: under a fixed random stream the embedded `generate_duty_list` is a
pure function of its arguments, so two calls with identical rooms, teachers,
slot count and random-source state return identical results. -/
theorem c8_deterministic (rooms teachers : List String) (slots : Nat)
    (rng : Nat → Nat) (r₁ r₂ : Option (List (String × List String) × Nat))
    (h₁ : generate_duty_list rooms teachers slots rng = r₁)
    (h₂ : generate_duty_list rooms teachers slots rng = r₂) : r₁ = r₂ := by
  rw [← h₁, ← h₂]

theorem c8_deterministic_witness :
    (some ([("R1", ["A"])], 1) :
      Option (List (String × List String) × Nat)) = some ([("R1", ["A"])], 1) :=
  c8_deterministic ["R1"] ["A"] 1 (fun _ => 0) _ _ (by decide) (by decide)

/-- C9: `generate_duty_list` is total: for every rooms sequence, teachers
sequence, slot count and random stream it returns a result; in the embedding
every dictionary lookup is `Option`-valued and a missing key would make the
whole run `none`, so a `some` result certifies that every lookup into
`teacher_count`, `slot_assignments` and `duty_table` hits an existing key,
with infeasible cells degrading to the sentinel instead of failing. -/
theorem c9_total (rooms teachers : List String) (slots : Nat)
    (rng : Nat → Nat) : (generate_duty_list rooms teachers slots rng).isSome := by
  obtain ⟨a, c, hrun, _⟩ := gdl_spec rooms teachers slots rng
  simp [hrun]

/-- C10: the sentinel is stored in-band in the same per-room list used for
the room-membership test, so a teacher literally named
"No Available Teacher" is excluded by it.  Concretely, with that single
teacher, rooms `["R1", "R2"]` and two slots: the run assigns the teacher at
(R1, slot 0) and leaves the three other cells unassigned.  Just before cell
(R2, slot 1) the state is `teacher_count = [(Sentinel, 1)]`, slot-1 roster
`[]`, and room list `[Sentinel]` for R2 holding only the sentinel written at
(R2, slot 0).  The filter over the room list yields no candidate even though
the teacher's duty count 1 is below the capacity 4, it is not in the slot
roster, and it was never assigned to R2 - dropping the in-band room entry
admits the teacher. -/
theorem c10_inband_sentinel_exclusion :
    generate_duty_list ["R1", "R2"] [Sentinel] 2 (fun _ => 0) =
      some ([("R1", [Sentinel, Sentinel]), ("R2", [Sentinel, Sentinel])], 4) ∧
    availFilter [(Sentinel, 1)] 4 [] [Sentinel] [Sentinel] = some [] ∧
    availFilter [(Sentinel, 1)] 4 [] [] [Sentinel] = some [Sentinel] ∧
    tcVal [(Sentinel, 1)] Sentinel < 4 :=
  ⟨by decide, by decide, by decide, by decide⟩

end Claims

end DutyAlloc
